import Mathlib

/-!
Verification of the `reimu` RTTI/vtable extractor against its specification.

The development shallowly embeds the two source files:
  * `src/binreader.rs` — the `BinReader` byte cursor (built on `std::io::Cursor`);
  * `src/main.rs` — the RTTI decoder (`handle_typename`), the vtable extractor
    (`handle_vtable` / `get_class_vtable`), the name mangler
    (`get_vtable_mangled_name`) and the JSON vtable presenter.

Machine integers are modelled as `Nat` (with explicit `% 2^32` / `% 2^64`
where wrapping or truncating casts occur in the source) and `Int` for `i32`
values.  Byte buffers are `List Nat` (entries intended `< 256`).  Rust
strings are modelled as their UTF-8 byte lists.  Fallible code (including
`panic!` / `expect` / `unwrap`) returns `Option`; loops whose termination is
data-dependent take an explicit fuel argument.
-/

/-- Little-endian decoding of a byte list, as in `u32::from_le_bytes`. -/
def le_bytes : List Nat → Nat
  | [] => 0
  | b :: rest => b + 256 * le_bytes rest

/-- Two's-complement reading of a 32-bit value, as in `i32::from_le_bytes`. -/
def sint32 (v : Nat) : Int :=
  if v < 2 ^ 31 then (v : Int) else (v : Int) - 2 ^ 32

/-- The state of `BinReader` from `src/binreader.rs`: the immutable byte
buffer (`data`, shared by reference in Rust) and the `std::io::Cursor`
position (`pos`, a `u64`). -/
structure BinReader where
  data : List Nat
  pos : Nat
deriving DecidableEq, Repr

namespace BinReader

/-- `BinReader::get_position`. -/
def get_position (r : BinReader) : Nat := r.pos

/-- `BinReader::set_position(offset: u32)`.  The argument is a `u32` in the
source; the interior `% 2^32` models that type (callers such as
`set_position(return_offset as u32)` truncate when converting). -/
def set_position (r : BinReader) (offset : Nat) : BinReader :=
  ⟨r.data, offset % 2 ^ 32⟩

/-- `BinReader::set_position_relative(offset: i32)`: the source computes
`(position as i64 + offset as i64) as u64`, i.e. a two's-complement sum
reduced modulo `2^64`. -/
def set_position_relative (r : BinReader) (delta : Int) : BinReader :=
  ⟨r.data, (((r.pos : Int) + delta) % (2 ^ 64 : Int)).toNat⟩

/-- Semantics of `std::io::Cursor::read` into a `k`-byte array, followed by
the `size == k` check shared by `read_u32`/`read_i32`/`read_u8`: the cursor
copies `n = min k (len - min pos len)` bytes starting at `min pos len` and
advances the position by `n`; the read "succeeds" only when `n = k`.
(`Cursor::read` over a byte slice never returns `Err`, so the source's
`Err(_) => None` arm is dead code.) -/
def read_bytes (r : BinReader) (k : Nat) : Option (List Nat) × BinReader :=
  let start := min r.pos r.data.length
  let n := min k (r.data.length - start)
  ((if n = k then some ((r.data.drop start).take k) else none),
   ⟨r.data, r.pos + n⟩)

/-- `BinReader::read_u32`. -/
def read_u32 (r : BinReader) : Option Nat × BinReader :=
  ((read_bytes r 4).1.map le_bytes, (read_bytes r 4).2)

/-- `BinReader::read_i32`. -/
def read_i32 (r : BinReader) : Option Int × BinReader :=
  ((read_bytes r 4).1.map (fun bs => sint32 (le_bytes bs)), (read_bytes r 4).2)

/-- `BinReader::read_u8` (`le_bytes [b] = b`, i.e. `buffer[0]`). -/
def read_u8 (r : BinReader) : Option Nat × BinReader :=
  ((read_bytes r 1).1.map le_bytes, (read_bytes r 1).2)

end BinReader

/-- Strict UTF-8 validity of a byte list, as checked by Rust's
`String::from_utf8` (the table of valid byte ranges from the Unicode
standard, including the overlong-encoding and surrogate exclusions). -/
def utf8Valid : List Nat → Bool
  | [] => true
  | b :: rest =>
    if b ≤ 127 then utf8Valid rest
    else if 194 ≤ b && b ≤ 223 then
      match rest with
      | c1 :: rest2 => (128 ≤ c1 && c1 ≤ 191) && utf8Valid rest2
      | [] => false
    else if b = 224 then
      match rest with
      | c1 :: c2 :: rest2 =>
        (160 ≤ c1 && c1 ≤ 191) && (128 ≤ c2 && c2 ≤ 191) && utf8Valid rest2
      | _ => false
    else if (225 ≤ b && b ≤ 236) || b = 238 || b = 239 then
      match rest with
      | c1 :: c2 :: rest2 =>
        (128 ≤ c1 && c1 ≤ 191) && (128 ≤ c2 && c2 ≤ 191) && utf8Valid rest2
      | _ => false
    else if b = 237 then
      match rest with
      | c1 :: c2 :: rest2 =>
        (128 ≤ c1 && c1 ≤ 159) && (128 ≤ c2 && c2 ≤ 191) && utf8Valid rest2
      | _ => false
    else if b = 240 then
      match rest with
      | c1 :: c2 :: c3 :: rest2 =>
        (144 ≤ c1 && c1 ≤ 191) && (128 ≤ c2 && c2 ≤ 191) &&
          (128 ≤ c3 && c3 ≤ 191) && utf8Valid rest2
      | _ => false
    else if 241 ≤ b && b ≤ 243 then
      match rest with
      | c1 :: c2 :: c3 :: rest2 =>
        (128 ≤ c1 && c1 ≤ 191) && (128 ≤ c2 && c2 ≤ 191) &&
          (128 ≤ c3 && c3 ≤ 191) && utf8Valid rest2
      | _ => false
    else if b = 244 then
      match rest with
      | c1 :: c2 :: c3 :: rest2 =>
        (128 ≤ c1 && c1 ≤ 143) && (128 ≤ c2 && c2 ≤ 191) &&
          (128 ≤ c3 && c3 ≤ 191) && utf8Valid rest2
      | _ => false
    else false

namespace BinReader

/-- The `while let Some(byte) = self.read_u8()` accumulation loop of
`BinReader::read_cstr`.  `fuel` is a modelling artifact: each successful
`read_u8` strictly advances the position within the buffer, so
`data.length + 1` rounds (as supplied by `read_cstr`) always suffice. -/
def read_cstr_loop : Nat → BinReader → List Nat × BinReader
  | 0, r => ([], r)
  | fuel + 1, r =>
    match read_u8 r with
    | (none, r1) => ([], r1)
    | (some b, r1) =>
      if b = 0 then ([], r1)
      else
        let (bs, r2) := read_cstr_loop fuel r1
        (b :: bs, r2)

/-- `BinReader::read_cstr(adjust)`: remember `return_offset = position + 4`
(`u64` arithmetic), read the `u32` pointer to the string (early-returning
`None` if that fails), optionally adjust it (the adjuster returns a `u32`),
seek there, accumulate bytes until a zero byte or a failed read, seek back to
`return_offset as u32`, and finally validate the bytes as UTF-8. -/
def read_cstr (r : BinReader) (adjust : Option (Nat → Nat)) :
    Option (List Nat) × BinReader :=
  let return_offset := (r.pos + 4) % 2 ^ 64
  match read_u32 r with
  | (none, r1) => (none, r1)
  | (some p0, r1) =>
    let position_to_string :=
      match adjust with
      | some f => f p0 % 2 ^ 32
      | none => p0
    let r2 := set_position r1 position_to_string
    let buffer := (read_cstr_loop (r2.data.length + 1) r2).1
    let r3 := (read_cstr_loop (r2.data.length + 1) r2).2
    let r4 := set_position r3 return_offset
    ((if utf8Valid buffer then some buffer else none), r4)

end BinReader

namespace BinReader

/-- Every read leaves the buffer unchanged. -/
lemma read_bytes_data (r : BinReader) (k : Nat) :
    (read_bytes r k).2.data = r.data := rfl

lemma read_u32_data (r : BinReader) : (read_u32 r).2.data = r.data := rfl

lemma read_i32_data (r : BinReader) : (read_i32 r).2.data = r.data := rfl

lemma read_u8_data (r : BinReader) : (read_u8 r).2.data = r.data := rfl

lemma set_position_data (r : BinReader) (o : Nat) :
    (set_position r o).data = r.data := rfl

/-- A `k`-byte read past the end of the buffer fails. -/
lemma read_bytes_none_of_short (r : BinReader) (k : Nat)
    (hk : 0 < k) (h : r.data.length < r.pos + k) :
    (read_bytes r k).1 = none := by
  unfold read_bytes
  simp only
  rw [if_neg]
  omega

/-- A failed `k`-byte read from beyond the buffer end does not move the
position at all. -/
lemma read_bytes_pos_of_past_end (r : BinReader) (k : Nat)
    (h : r.data.length ≤ r.pos) :
    (read_bytes r k).2.pos = r.pos := by
  unfold read_bytes
  simp only
  omega

/-- A read never moves the position past `max pos (buffer length)`. -/
lemma read_bytes_pos_le (r : BinReader) (k : Nat) (h : r.pos ≤ r.data.length) :
    (read_bytes r k).2.pos ≤ r.data.length := by
  unfold read_bytes
  simp only
  omega

/-- A successful `k`-byte read determines its result bytes and final
position: the bytes are the `k` bytes of the buffer at the start position,
and the position advances by exactly `k`. -/
lemma read_bytes_success (r : BinReader) (k : Nat) (bs : List Nat)
    (hk : 0 < k) (h : (read_bytes r k).1 = some bs) :
    r.pos + k ≤ r.data.length ∧
    bs = (r.data.drop r.pos).take k ∧
    (read_bytes r k).2 = ⟨r.data, r.pos + k⟩ := by
  unfold read_bytes at h ⊢
  simp only at h ⊢
  by_cases hc : min k (r.data.length - min r.pos r.data.length) = k
  · rw [if_pos hc] at h
    have hle : r.pos + k ≤ r.data.length := by omega
    have hmin : min r.pos r.data.length = r.pos := by omega
    refine ⟨hle, ?_, ?_⟩
    · rw [hmin] at h
      exact (Option.some.injEq _ _ ▸ h.symm)
    · rw [hmin] at hc ⊢
      congr 1
      omega
  · rw [if_neg hc] at h
    exact absurd h (by simp)

end BinReader

namespace BinReader

/-- The accumulation loop of `read_cstr` never changes the buffer. -/
lemma read_cstr_loop_data (fuel : Nat) :
    ∀ r : BinReader, (read_cstr_loop fuel r).2.data = r.data := by
  induction fuel with
  | zero => intro r; rfl
  | succ f ih =>
    intro r
    unfold read_cstr_loop
    cases h8 : read_u8 r with
    | mk ob r1 =>
      have hd : r1.data = r.data := by
        have := read_u8_data r
        rw [h8] at this
        exact this
      cases ob with
      | none => simpa using hd
      | some b =>
        by_cases hb : b = 0
        · simpa [hb] using hd
        · cases hl : read_cstr_loop f r1 with
          | mk bs r2 =>
            have := ih r1
            rw [hl] at this
            simpa [hb, hl] using this.trans hd

/-- When the initial pointer read of `read_cstr` succeeds, the buffer holds
at least four bytes past the starting position. -/
lemma read_cstr_pointer_success (r : BinReader) (p0 : Nat) (r1 : BinReader)
    (hu : read_u32 r = (some p0, r1)) : r.pos + 4 ≤ r.data.length := by
  have h1 : (read_u32 r).1 = some p0 := by rw [hu]
  simp only [read_u32] at h1
  cases hb : (read_bytes r 4).1 with
  | none => rw [hb] at h1; exact absurd h1 (by simp)
  | some bs => exact (read_bytes_success r 4 bs (by norm_num) hb).1

/-- `read_cstr` never changes the buffer. -/
lemma read_cstr_data (r : BinReader) (adjust : Option (Nat → Nat)) :
    (read_cstr r adjust).2.data = r.data := by
  unfold read_cstr
  cases hu : read_u32 r with
  | mk ou r1 =>
    have hd : r1.data = r.data := by
      have := read_u32_data r
      rw [hu] at this
      exact this
    cases ou with
    | none => simpa using hd
    | some p0 => simp [set_position, read_cstr_loop_data, hd]

/-- Whatever `read_cstr` does, the final offset is bounded by
`max (starting offset) (buffer length)`. -/
lemma read_cstr_pos_le (r : BinReader) (adjust : Option (Nat → Nat)) :
    (read_cstr r adjust).2.pos ≤ max r.pos r.data.length := by
  unfold read_cstr
  cases hu : read_u32 r with
  | mk ou r1 =>
    cases ou with
    | none =>
      have h2 : (read_u32 r).2 = r1 := by rw [hu]
      simp only
      rw [← h2]
      unfold read_u32 read_bytes
      simp only
      omega
    | some p0 =>
      have hs : r.pos + 4 ≤ r.data.length := read_cstr_pointer_success r p0 r1 hu
      simp only [set_position]
      have : (r.pos + 4) % 2 ^ 64 % 2 ^ 32 ≤ r.pos + 4 :=
        le_trans (Nat.mod_le _ _) (Nat.mod_le _ _)
      omega

end BinReader

/-- C6: each `ByteCursor` read operation (`read_u32`, `read_i32`, `read_u8`)
whose required byte count exceeds the bytes remaining before the end of the
buffer returns `None` (the model is a total function, so no panic, and no
partial data is produced). -/
theorem read_past_end_returns_none (data : List Nat) (p : Nat) :
    (data.length < p + 4 →
      (BinReader.read_u32 ⟨data, p⟩).1 = none ∧
      (BinReader.read_i32 ⟨data, p⟩).1 = none) ∧
    (data.length < p + 1 →
      (BinReader.read_u8 ⟨data, p⟩).1 = none) := by
  refine ⟨fun h => ⟨?_, ?_⟩, fun h => ?_⟩
  · have hb := BinReader.read_bytes_none_of_short ⟨data, p⟩ 4 (by norm_num) h
    simp [BinReader.read_u32, hb]
  · have hb := BinReader.read_bytes_none_of_short ⟨data, p⟩ 4 (by norm_num) h
    simp [BinReader.read_i32, hb]
  · have hb := BinReader.read_bytes_none_of_short ⟨data, p⟩ 1 (by norm_num) h
    simp [BinReader.read_u8, hb]

theorem read_past_end_returns_none_witness :
    (List.length ([2, 3] : List Nat) < 1 + 4 ∧ List.length ([2, 3] : List Nat) < 2 + 1) ∧
    ((BinReader.read_u32 ⟨[2, 3], 1⟩).1 = none ∧
      (BinReader.read_i32 ⟨[2, 3], 1⟩).1 = none) ∧
    (BinReader.read_u8 ⟨[2, 3], 2⟩).1 = none :=
  ⟨⟨by decide, by decide⟩,
    (read_past_end_returns_none [2, 3] 1).1 (by decide),
    (read_past_end_returns_none [2, 3] 2).2 (by decide)⟩

/-- C10: for a negative `i32` delta `d` with `|d| > p`, `set_position_relative`
neither fails nor clamps: the new position is the two's-complement sum
`p + d` reduced modulo `2^64`, which lies in `[2^64 - 2^31, 2^64)` — past the
end of any buffer a Rust `Vec` can hold (`len ≤ isize::MAX < 2^64 - 2^31`) —
and every subsequent read from that position returns `None` without moving
the position. -/
theorem set_position_relative_underflow (data : List Nat) (p : Nat) (d : Int)
    (h1 : -(2 ^ 31) ≤ d) (h2 : d < 0) (h3 : (p : Int) < -d)
    (h4 : (data.length : Int) < 2 ^ 64 - 2 ^ 31) :
    (BinReader.set_position_relative ⟨data, p⟩ d).pos
      = ((p : Int) + d + 2 ^ 64).toNat ∧
    data.length < (BinReader.set_position_relative ⟨data, p⟩ d).pos ∧
    (BinReader.read_u32 (BinReader.set_position_relative ⟨data, p⟩ d)).1 = none ∧
    (BinReader.read_i32 (BinReader.set_position_relative ⟨data, p⟩ d)).1 = none ∧
    (BinReader.read_u8 (BinReader.set_position_relative ⟨data, p⟩ d)).1 = none ∧
    (BinReader.read_u32 (BinReader.set_position_relative ⟨data, p⟩ d)).2.pos
      = (BinReader.set_position_relative ⟨data, p⟩ d).pos := by
  have hpos : (BinReader.set_position_relative ⟨data, p⟩ d).pos
      = ((p : Int) + d + 2 ^ 64).toNat := by
    unfold BinReader.set_position_relative
    simp only
    congr 1
    omega
  have hgt : data.length < (BinReader.set_position_relative ⟨data, p⟩ d).pos := by
    rw [hpos]; omega
  have hdata : (BinReader.set_position_relative ⟨data, p⟩ d).data = data := rfl
  have hshort4 : (BinReader.set_position_relative ⟨data, p⟩ d).data.length
      < (BinReader.set_position_relative ⟨data, p⟩ d).pos + 4 := by
    rw [hdata]; omega
  have hshort1 : (BinReader.set_position_relative ⟨data, p⟩ d).data.length
      < (BinReader.set_position_relative ⟨data, p⟩ d).pos + 1 := by
    rw [hdata]; omega
  have hb4 := BinReader.read_bytes_none_of_short _ 4 (by norm_num) hshort4
  have hb1 := BinReader.read_bytes_none_of_short _ 1 (by norm_num) hshort1
  have hpe : (BinReader.set_position_relative ⟨data, p⟩ d).data.length
      ≤ (BinReader.set_position_relative ⟨data, p⟩ d).pos := by
    rw [hdata]; omega
  refine ⟨hpos, hgt, ?_, ?_, ?_, ?_⟩
  · simp [BinReader.read_u32, hb4]
  · simp [BinReader.read_i32, hb4]
  · simp [BinReader.read_u8, hb1]
  · show (BinReader.read_bytes _ 4).2.pos = _
    exact BinReader.read_bytes_pos_of_past_end _ 4 hpe

theorem set_position_relative_underflow_witness :
    ((-(2 ^ 31) : Int) ≤ -5 ∧ (-5 : Int) < 0 ∧ ((2 : Nat) : Int) < -(-5 : Int) ∧
      ((List.length [1, 2, 3] : Nat) : Int) < 2 ^ 64 - 2 ^ 31) ∧
    (BinReader.set_position_relative ⟨[1, 2, 3], 2⟩ (-5)).pos
      = (((2 : Nat) : Int) + (-5) + 2 ^ 64).toNat ∧
    List.length [1, 2, 3] < (BinReader.set_position_relative ⟨[1, 2, 3], 2⟩ (-5)).pos ∧
    (BinReader.read_u32 (BinReader.set_position_relative ⟨[1, 2, 3], 2⟩ (-5))).1 = none ∧
    (BinReader.read_i32 (BinReader.set_position_relative ⟨[1, 2, 3], 2⟩ (-5))).1 = none ∧
    (BinReader.read_u8 (BinReader.set_position_relative ⟨[1, 2, 3], 2⟩ (-5))).1 = none ∧
    (BinReader.read_u32 (BinReader.set_position_relative ⟨[1, 2, 3], 2⟩ (-5))).2.pos
      = (BinReader.set_position_relative ⟨[1, 2, 3], 2⟩ (-5)).pos :=
  ⟨⟨by norm_num, by norm_num, by norm_num, by norm_num⟩,
    set_position_relative_underflow [1, 2, 3] 2 (-5)
      (by norm_num) (by norm_num) (by norm_num) (by norm_num)⟩

/-- C1, counterexample: on the 2-byte buffer `[0, 0]` with the cursor at
position 0, the initial pointer read inside `read_cstr` fails, the call
returns `None`, and the final cursor position is 2 (where the failed read
stopped), not `0 + 4` — refuting "the cursor position is always `p + 4`,
whether the call succeeds or fails". -/
theorem read_cstr_failed_pointer_cex :
    BinReader.read_cstr ⟨[0, 0], 0⟩ none = (none, ⟨[0, 0], 2⟩) ∧
    ¬ ((BinReader.read_cstr ⟨[0, 0], 0⟩ none).2.pos = 0 + 4) := by
  constructor
  · decide
  · decide

/-- C1, amended: whenever the initial 4-byte pointer read succeeds,
`read_cstr` leaves the cursor at `(p + 4) mod 2^32` (the source seeks to
`return_offset as u32`; this equals `p + 4` for every position below
`2^32 - 4`), for every adjustment function and regardless of where the
pointed-to string lies and of the success or failure of the string read and
UTF-8 validation.  When the initial pointer read fails, the call fails with
the cursor wherever the failed read left it. -/
theorem read_cstr_snaps_back (r : BinReader) (adjust : Option (Nat → Nat))
    (p0 : Nat) (r1 : BinReader)
    (h : BinReader.read_u32 r = (some p0, r1)) :
    (BinReader.read_cstr r adjust).2 = ⟨r.data, (r.pos + 4) % 2 ^ 32⟩ := by
  unfold BinReader.read_cstr
  rw [h]
  simp only [BinReader.set_position]
  have hd : r1.data = r.data := by
    have := BinReader.read_u32_data r
    rw [h] at this
    exact this
  rw [BinReader.read_cstr_loop_data]
  simp only [hd]
  congr 1
  exact Nat.mod_mod_of_dvd _ (by norm_num)

theorem read_cstr_snaps_back_witness :
    BinReader.read_u32 ⟨[1, 2, 3, 4, 5], 0⟩ = (some 67305985, ⟨[1, 2, 3, 4, 5], 4⟩) ∧
    (BinReader.read_cstr ⟨[1, 2, 3, 4, 5], 0⟩ none).2 = ⟨[1, 2, 3, 4, 5], (0 + 4) % 2 ^ 32⟩ :=
  ⟨by decide,
    read_cstr_snaps_back ⟨[1, 2, 3, 4, 5], 0⟩ none 67305985 ⟨[1, 2, 3, 4, 5], 4⟩ (by decide)⟩

/-- One `BinReader` operation, for stating properties of operation
sequences: the two seeks and the four reads of `src/binreader.rs`. -/
inductive CursorOp where
  | seek (offset : Nat)
  | seek_rel (delta : Int)
  | ru8
  | ru32
  | ri32
  | rcstr (adjust : Option (Nat → Nat))

/-- The effect of one operation on the reader state (read results are
discarded; only the cursor evolution matters here). -/
def CursorOp.apply (r : BinReader) : CursorOp → BinReader
  | .seek o => BinReader.set_position r o
  | .seek_rel d => BinReader.set_position_relative r d
  | .ru8 => (BinReader.read_u8 r).2
  | .ru32 => (BinReader.read_u32 r).2
  | .ri32 => (BinReader.read_i32 r).2
  | .rcstr a => (BinReader.read_cstr r a).2

/-- Whether an operation is a read (as opposed to a seek). -/
def CursorOp.isRead : CursorOp → Bool
  | .seek _ => false
  | .seek_rel _ => false
  | .ru8 => true
  | .ru32 => true
  | .ri32 => true
  | .rcstr _ => true

/-- Running a sequence of cursor operations. -/
def applyOps (r : BinReader) (ops : List CursorOp) : BinReader :=
  ops.foldl CursorOp.apply r

/-- Any single read operation keeps the offset within the buffer if it
started within the buffer, and never changes the buffer. -/
lemma CursorOp.apply_read_bound (r : BinReader) (op : CursorOp)
    (hop : op.isRead = true) (h : r.pos ≤ r.data.length) :
    (op.apply r).pos ≤ r.data.length ∧ (op.apply r).data = r.data := by
  cases op with
  | seek o => exact absurd hop (by simp [CursorOp.isRead])
  | seek_rel d => exact absurd hop (by simp [CursorOp.isRead])
  | ru8 =>
    exact ⟨BinReader.read_bytes_pos_le r 1 h, rfl⟩
  | ru32 =>
    exact ⟨BinReader.read_bytes_pos_le r 4 h, rfl⟩
  | ri32 =>
    exact ⟨BinReader.read_bytes_pos_le r 4 h, rfl⟩
  | rcstr a =>
    refine ⟨?_, BinReader.read_cstr_data r a⟩
    show (BinReader.read_cstr r a).2.pos ≤ r.data.length
    have := BinReader.read_cstr_pos_le r a
    omega

/-- C7, counterexample: the claim "after every sequence of ByteCursor
operations (seek, seek_relative, reads) the offset is at most the buffer
length" fails already for the single operation `seek 5` on the empty buffer:
the offset becomes 5 > 0 (`set_position` enforces no bound). -/
theorem cursor_offset_bound_cex :
    (applyOps ⟨[], 0⟩ [CursorOp.seek 5]).pos = 5 ∧
    ¬ ((applyOps ⟨[], 0⟩ [CursorOp.seek 5]).pos ≤ List.length ([] : List Nat)) := by
  constructor
  · rfl
  · decide

/-- C7, amended: seeks may place the offset beyond the buffer length (no
bound is enforced until the next read), but every read operation leaves the
offset at most the buffer length whenever it starts there; hence after every
sequence of read operations starting within the buffer of length `L`, the
offset is at most `L`. -/
theorem read_ops_preserve_offset_bound (ops : List CursorOp) (r : BinReader)
    (hops : ∀ op ∈ ops, op.isRead = true) (h : r.pos ≤ r.data.length) :
    (applyOps r ops).pos ≤ (applyOps r ops).data.length := by
  induction ops generalizing r with
  | nil => exact h
  | cons op rest ih =>
    have hstep := CursorOp.apply_read_bound r op (hops op (by simp)) h
    have := ih (op.apply r) (fun o ho => hops o (by simp [ho]))
      (by rw [hstep.2]; exact hstep.1)
    simpa [applyOps] using this

theorem read_ops_preserve_offset_bound_witness :
    ((∀ op ∈ [CursorOp.ru32, CursorOp.ru8, CursorOp.rcstr none],
        op.isRead = true) ∧
      (BinReader.pos ⟨[1, 2], 0⟩ ≤ (BinReader.data ⟨[1, 2], 0⟩).length)) ∧
    (applyOps ⟨[1, 2], 0⟩ [CursorOp.ru32, CursorOp.ru8, CursorOp.rcstr none]).pos
      ≤ (applyOps ⟨[1, 2], 0⟩ [CursorOp.ru32, CursorOp.ru8, CursorOp.rcstr none]).data.length :=
  ⟨⟨fun op hop => by fin_cases hop <;> rfl, by decide⟩,
    read_ops_preserve_offset_bound [CursorOp.ru32, CursorOp.ru8, CursorOp.rcstr none]
      ⟨[1, 2], 0⟩ (fun op hop => by fin_cases hop <;> rfl) (by decide)⟩

/-- The `Class` tree of `src/main.rs` (named `ClassNode` as in the spec,
since `Class` is taken in this environment): a mangled type name (Rust
`String`, modelled as its UTF-8 bytes) and the ordered base classes. -/
inductive ClassNode where
  | mk (name : List Nat) (base : List ClassNode)

/-- The mangled name stored at a node. -/
def ClassNode.name : ClassNode → List Nat
  | .mk n _ => n

/-- The ordered base-class subtrees of a node. -/
def ClassNode.base : ClassNode → List ClassNode
  | .mk _ b => b

/-- The `for _ in 0..base_class_count` loop at the end of `handle_typename`
(`src/main.rs` lines 180–196), abstracted over the recursive call `ht`
(which the caller instantiates with `handle_typename` at the remaining
fuel): read a `(type_descriptor, attribute)` pair, remember the position
just after it, recurse into the type descriptor (appending the decoded
child), then `set_position(return_offset.try_into().unwrap())` — the
`try_into` panics (modelled as `none`) if the `u64` position exceeds
`u32::MAX`. -/
def typename_bases (ht : BinReader → Nat → Option (ClassNode × BinReader)) :
    Nat → BinReader → Option (List ClassNode × BinReader)
  | 0, r => some ([], r)
  | count + 1, r =>
    match BinReader.read_u32 r with
    | (none, _) => none
    | (some type_descriptor, r1) =>
      match BinReader.read_u32 r1 with
      | (none, _) => none
      | (some _base_attribute, r2) =>
        let return_offset := r2.pos
        match ht r2 type_descriptor with
        | none => none
        | some (child, r3) =>
          if return_offset < 2 ^ 32 then
            match typename_bases ht count (BinReader.set_position r3 return_offset) with
            | none => none
            | some (rest, rE) => some (child :: rest, rE)
          else none

/-- `handle_typename` from `src/main.rs`: seek to `offset + 4` (skipping the
vtable-pointer slot), read the mangled name via the indirect-string
convention (the source calls `read_cstr()` with no adjuster), read the
second field, then dispatch: exact match against `rtti_class_offsets` →
leaf; `second_field > start_data_rel_ro` → single embedded base, recurse;
otherwise read a third field: `third_field > start_data_rel_ro` → overrun
into an adjacent structure, leaf; otherwise `third_field` is the base-class
count for the pair-array loop.  Every `expect` (panic) is `none`; `fuel`
bounds the recursion depth (the source has no guard and can loop on
malformed input). -/
def handle_typename : Nat → BinReader → Nat → Nat → List Nat → Option (ClassNode × BinReader)
  | 0, _, _, _, _ => none
  | fuel + 1, reader, offset, start_data_rel_ro, rtti_class_offsets =>
    match BinReader.read_cstr (BinReader.set_position reader (offset + 4)) none with
    | (none, _) => none
    | (some name, r1) =>
      match BinReader.read_u32 r1 with
      | (none, _) => none
      | (some second_field, r2) =>
        if rtti_class_offsets.contains second_field then
          some (⟨name, []⟩, r2)
        else if second_field > start_data_rel_ro then
          match handle_typename fuel r2 second_field start_data_rel_ro rtti_class_offsets with
          | none => none
          | some (child, r3) => some (⟨name, [child]⟩, r3)
        else
          match BinReader.read_u32 r2 with
          | (none, _) => none
          | (some third_field, r3) =>
            if third_field > start_data_rel_ro then
              some (⟨name, []⟩, r3)
            else
              match typename_bases
                  (fun rr oo => handle_typename fuel rr oo start_data_rel_ro rtti_class_offsets)
                  third_field r3 with
              | none => none
              | some (bases, rE) => some (⟨name, bases⟩, rE)

/-- A successful `read_u32` consumes exactly the four buffer bytes at the
current position. -/
lemma read_u32_success (r : BinReader) (w : Nat) (r1 : BinReader)
    (h : BinReader.read_u32 r = (some w, r1)) :
    r.pos + 4 ≤ r.data.length ∧ r1 = ⟨r.data, r.pos + 4⟩ ∧
    w = le_bytes ((r.data.drop r.pos).take 4) := by
  unfold BinReader.read_u32 at h
  rw [Prod.mk.injEq] at h
  obtain ⟨h1, h2⟩ := h
  cases hb : (BinReader.read_bytes r 4).1 with
  | none => rw [hb] at h1; exact absurd h1 (by simp)
  | some bs =>
    obtain ⟨hle, hbs, hsnd⟩ := BinReader.read_bytes_success r 4 bs (by norm_num) hb
    rw [hb] at h1
    simp only [Option.map_some'] at h1
    rw [Option.some.injEq] at h1
    refine ⟨hle, by rw [← h2, hsnd], by rw [← h1, hbs]⟩

/-- Structural facts about a successful base-class array scan: it produces
exactly `count` children, preserves the buffer, and (because the cursor is
restored to just after each 8-byte pair before the next is read) finishes
exactly `8 * count` bytes after where it started, independently of where the
per-child recursion wandered. -/
lemma typename_bases_spec (ht : BinReader → Nat → Option (ClassNode × BinReader))
    (hpres : ∀ rr oo c r', ht rr oo = some (c, r') → r'.data = rr.data) :
    ∀ count r cs rE, typename_bases ht count r = some (cs, rE) →
      cs.length = count ∧ rE.data = r.data ∧ rE.pos = r.pos + 8 * count := by
  intro count
  induction count with
  | zero =>
    intro r cs rE h
    simp only [typename_bases] at h
    rw [Option.some.injEq, Prod.mk.injEq] at h
    exact ⟨by rw [← h.1]; rfl, by rw [← h.2], by rw [← h.2]; omega⟩
  | succ n ih =>
    intro r cs rE h
    simp only [typename_bases] at h
    split at h
    · exact absurd h (by simp)
    · rename_i td r1 heq1
      split at h
      · exact absurd h (by simp)
      · rename_i attr r2 heq2
        split at h
        · exact absurd h (by simp)
        · rename_i child r3 heq3
          split at h
          · rename_i hlt
            split at h
            · exact absurd h (by simp)
            · rename_i rest rE2 heq4
              rw [Option.some.injEq, Prod.mk.injEq] at h
              obtain ⟨hcs, hre⟩ := h
              obtain ⟨hlen, hdat, hpos⟩ := ih _ _ _ heq4
              obtain ⟨hle1, hr1, -⟩ := read_u32_success r td r1 heq1
              obtain ⟨hle2, hr2, -⟩ := read_u32_success r1 attr r2 heq2
              have hd3 : r3.data = r2.data := hpres r2 td child r3 heq3
              have hsp : BinReader.set_position r3 r2.pos = ⟨r3.data, r2.pos⟩ := by
                unfold BinReader.set_position
                rw [Nat.mod_eq_of_lt hlt]
              rw [hsp] at hdat hpos
              subst hr1 hr2
              refine ⟨by rw [← hcs]; simp [hlen], ?_, ?_⟩
              · rw [← hre] at *
                simp only at hdat
                rw [hdat, hd3]
              · rw [← hre] at *
                simp only at hpos
                rw [hpos]
                omega
          · exact absurd h (by simp)

/-- `handle_typename` never changes the buffer, whatever it decodes. -/
lemma handle_typename_data :
    ∀ fuel r offset srro rtti c r',
      handle_typename fuel r offset srro rtti = some (c, r') → r'.data = r.data := by
  intro fuel
  induction fuel with
  | zero => intro r o s t c r' h; exact absurd h (by simp [handle_typename])
  | succ f ih =>
    intro r offset srro rtti c r' h
    simp only [handle_typename] at h
    split at h
    · exact absurd h (by simp)
    · rename_i name r1 heq1
      have hd1 : r1.data = r.data := by
        have := BinReader.read_cstr_data (BinReader.set_position r (offset + 4)) none
        rw [heq1] at this
        exact this
      split at h
      · exact absurd h (by simp)
      · rename_i second r2 heq2
        have hd2 : r2.data = r1.data := by
          have := BinReader.read_u32_data r1
          rw [heq2] at this
          exact this
        split at h
        · rw [Option.some.injEq, Prod.mk.injEq] at h
          rw [← h.2, hd2, hd1]
        · split at h
          · split at h
            · exact absurd h (by simp)
            · rename_i child r3 heq3
              rw [Option.some.injEq, Prod.mk.injEq] at h
              rw [← h.2, ih _ _ _ _ _ _ heq3, hd2, hd1]
          · split at h
            · exact absurd h (by simp)
            · rename_i third r3 heq3
              have hd3 : r3.data = r2.data := by
                have := BinReader.read_u32_data r2
                rw [heq3] at this
                exact this
              split at h
              · rw [Option.some.injEq, Prod.mk.injEq] at h
                rw [← h.2, hd3, hd2, hd1]
              · split at h
                · exact absurd h (by simp)
                · rename_i bases rE heq4
                  rw [Option.some.injEq, Prod.mk.injEq] at h
                  rw [← h.2]
                  have hspec := typename_bases_spec
                    (fun rr oo => handle_typename f rr oo srro rtti)
                    (fun rr oo cc rr2 hh => ih rr oo srro rtti cc rr2 hh)
                    third r3 bases rE heq4
                  rw [hspec.2.1, hd3, hd2, hd1]

/-- C2: when the second field read after the type name exactly equals one of
the known typeclass vtable offsets, `handle_typename` returns a leaf node
with no children.  `start_data_rel_ro` is entirely unconstrained here: the
exact-match check precedes (and so overrides) the comparison of the second
field against `data_rel_ro_start`. -/
theorem handle_typename_bare_type_leaf (fuel : Nat) (r : BinReader)
    (offset start_data_rel_ro : Nat) (rtti_class_offsets : List Nat)
    (name : List Nat) (second_field : Nat) (r1 r2 : BinReader)
    (h1 : BinReader.read_cstr (BinReader.set_position r (offset + 4)) none
      = (some name, r1))
    (h2 : BinReader.read_u32 r1 = (some second_field, r2))
    (hc : rtti_class_offsets.contains second_field = true) :
    handle_typename (fuel + 1) r offset start_data_rel_ro rtti_class_offsets
      = some (⟨name, []⟩, r2) := by
  simp [handle_typename, h1, h2, hc]
  intro hmem
  exact absurd (by simpa using hc) hmem

theorem handle_typename_bare_type_leaf_witness :
    BinReader.read_cstr (BinReader.set_position ⟨[0,0,0,0, 12,0,0,0, 7,0,0,0, 65,0], 0⟩ (0 + 4)) none
      = (some [65], ⟨[0,0,0,0, 12,0,0,0, 7,0,0,0, 65,0], 8⟩) ∧
    BinReader.read_u32 ⟨[0,0,0,0, 12,0,0,0, 7,0,0,0, 65,0], 8⟩
      = (some 7, ⟨[0,0,0,0, 12,0,0,0, 7,0,0,0, 65,0], 12⟩) ∧
    ([7] : List Nat).contains 7 = true ∧ 7 > 3 ∧
    handle_typename 1 ⟨[0,0,0,0, 12,0,0,0, 7,0,0,0, 65,0], 0⟩ 0 3 [7]
      = some (⟨[65], []⟩, ⟨[0,0,0,0, 12,0,0,0, 7,0,0,0, 65,0], 12⟩) :=
  ⟨by decide, by decide, by decide, by decide,
    handle_typename_bare_type_leaf 0 ⟨[0,0,0,0, 12,0,0,0, 7,0,0,0, 65,0], 0⟩ 0 3 [7]
      [65] 7 ⟨[0,0,0,0, 12,0,0,0, 7,0,0,0, 65,0], 8⟩ ⟨[0,0,0,0, 12,0,0,0, 7,0,0,0, 65,0], 12⟩
      (by decide) (by decide) (by decide)⟩

/-- C4: in the multi-base case (second field neither a typeclass offset nor
above `data_rel_ro_start`, third field not above it either), a successful
decode returns a node carrying the read name with exactly `third_field`
children (so an empty base sequence for count 0), and because the cursor is
restored to just after each `(type_descriptor, attribute)` pair before the
next pair is read, the final cursor sits exactly `8 * third_field` bytes
after the pair array's start, wherever the per-child recursion wandered. -/
theorem handle_typename_multibase_children (fuel : Nat) (r : BinReader)
    (offset start_data_rel_ro : Nat) (rtti_class_offsets : List Nat)
    (name : List Nat) (second_field third_field : Nat) (r1 r2 r3 : BinReader)
    (h1 : BinReader.read_cstr (BinReader.set_position r (offset + 4)) none
      = (some name, r1))
    (h2 : BinReader.read_u32 r1 = (some second_field, r2))
    (hc : rtti_class_offsets.contains second_field = false)
    (hs : ¬ second_field > start_data_rel_ro)
    (h3 : BinReader.read_u32 r2 = (some third_field, r3))
    (hg : ¬ third_field > start_data_rel_ro) :
    ∀ c rE, handle_typename (fuel + 1) r offset start_data_rel_ro rtti_class_offsets
        = some (c, rE) →
      c.name = name ∧ c.base.length = third_field ∧
      rE.data = r3.data ∧ rE.pos = r3.pos + 8 * third_field := by
  intro c rE h
  simp only [handle_typename, h1, h2, h3] at h
  rw [hc] at h
  simp only [Bool.false_eq_true, if_false, if_neg hs, if_neg hg] at h
  split at h
  · exact absurd h (by simp)
  · rename_i bases rE2 heq
    rw [Option.some.injEq, Prod.mk.injEq] at h
    obtain ⟨hcEq, hrEq⟩ := h
    have hspec := typename_bases_spec
      (fun rr oo => handle_typename fuel rr oo start_data_rel_ro rtti_class_offsets)
      (fun rr oo cc rr2 hh =>
        handle_typename_data fuel rr oo start_data_rel_ro rtti_class_offsets cc rr2 hh)
      third_field r3 bases rE2 heq
    refine ⟨by rw [← hcEq]; rfl, by rw [← hcEq]; exact hspec.1, ?_, ?_⟩
    · rw [← hrEq]; exact hspec.2.1
    · rw [← hrEq]; exact hspec.2.2

/-- A concrete buffer for exercising the multi-base branch: a typeinfo at
offset 0 (name pointer 40 → "B", attribute 2, base count 1) whose single
base pair points at a bare typeinfo at offset 20 (name pointer 42 → "C",
second field 1000 = a typeclass offset). -/
def multiBaseBuf : List Nat :=
  [0,0,0,0, 40,0,0,0, 2,0,0,0, 1,0,0,0, 20,0,0,0, 0,0,0,0, 42,0,0,0, 232,3,0,0,
   0,0,0,0, 0,0,0,0, 66,0,67,0]

theorem handle_typename_multibase_children_witness :
    (BinReader.read_cstr (BinReader.set_position ⟨multiBaseBuf, 0⟩ (0 + 4)) none
        = (some [66], ⟨multiBaseBuf, 8⟩) ∧
      BinReader.read_u32 ⟨multiBaseBuf, 8⟩ = (some 2, ⟨multiBaseBuf, 12⟩) ∧
      ([1000] : List Nat).contains 2 = false ∧ ¬ 2 > 3 ∧
      BinReader.read_u32 ⟨multiBaseBuf, 12⟩ = (some 1, ⟨multiBaseBuf, 16⟩) ∧
      ¬ 1 > 3 ∧
      handle_typename 2 ⟨multiBaseBuf, 0⟩ 0 3 [1000]
        = some (⟨[66], [⟨[67], []⟩]⟩, ⟨multiBaseBuf, 24⟩)) ∧
    ((ClassNode.mk [66] [⟨[67], []⟩]).name = [66] ∧
      (ClassNode.mk [66] [⟨[67], []⟩]).base.length = 1 ∧
      (⟨multiBaseBuf, 24⟩ : BinReader).data = (⟨multiBaseBuf, 16⟩ : BinReader).data ∧
      (⟨multiBaseBuf, 24⟩ : BinReader).pos = (⟨multiBaseBuf, 16⟩ : BinReader).pos + 8 * 1) :=
  ⟨⟨by decide, by decide, by decide, by decide, by decide, by decide, rfl⟩,
    handle_typename_multibase_children 1 ⟨multiBaseBuf, 0⟩ 0 3 [1000] [66] 2 1
      ⟨multiBaseBuf, 8⟩ ⟨multiBaseBuf, 12⟩ ⟨multiBaseBuf, 16⟩
      (by decide) (by decide) (by decide) (by decide) (by decide) (by decide)
      (ClassNode.mk [66] [⟨[67], []⟩]) ⟨multiBaseBuf, 24⟩ rfl⟩

/-- The `while let Some(addr) = reader.read_u32()` scan of `handle_vtable`
(`src/main.rs` lines 225–241): read a slot, look ahead at the following
4 bytes (a failed lookahead is an `expect` panic, modelled `none`); if the
lookahead matches one of `cxxabi_offsets` or the class's own typeinfo
address, or the slot itself is zero, rewind 8 bytes and stop; otherwise
rewind 4 bytes (undoing only the lookahead) and commit the slot.  `fuel`
bounds the loop (each committed slot advances the position by 4, so the
loop always terminates in the source). -/
def handle_vtable_scan :
    Nat → BinReader → Nat → List Nat → Option (List Nat × BinReader)
  | 0, _, _, _ => none
  | fuel + 1, r, class_typeinfo, cxxabi_offsets =>
    match BinReader.read_u32 r with
    | (none, r1) => some ([], r1)
    | (some addr, r1) =>
      match BinReader.read_u32 r1 with
      | (none, _) => none
      | (some next_u32, r2) =>
        if cxxabi_offsets.contains next_u32 || next_u32 == class_typeinfo
            || addr == 0 then
          some ([], BinReader.set_position_relative r2 (-8))
        else
          match handle_vtable_scan fuel
              (BinReader.set_position_relative r2 (-4)) class_typeinfo cxxabi_offsets with
          | none => none
          | some (rest, rE) => some (addr :: rest, rE)

/-- `handle_vtable` from `src/main.rs`: read the group's `offset_to_this`
(an `i32`; the `unwrap` panic is `none`), skip the typeinfo reference, then
scan the function-pointer slots. -/
def handle_vtable (fuel : Nat) (r : BinReader) (class_typeinfo : Nat)
    (cxxabi_offsets : List Nat) : Option ((Int × List Nat) × BinReader) :=
  match BinReader.read_i32 r with
  | (none, _) => none
  | (some offset_to_this, r1) =>
    match handle_vtable_scan fuel (BinReader.set_position_relative r1 4)
        class_typeinfo cxxabi_offsets with
    | none => none
    | some (function_pointers, rE) => some ((offset_to_this, function_pointers), rE)

/-- The `loop` of `get_class_vtable` (`src/main.rs` lines 259–271): peek the
typeinfo slot at `table_offset + 4` (an `unwrap` panic on failure), stop if
it differs from the class's typeinfo, otherwise decode one group with
`handle_vtable` and continue at the cursor's position (`as u32`). -/
def get_class_vtable_loop :
    Nat → BinReader → Nat → Nat → List Nat → Option (List (Int × List Nat) × BinReader)
  | 0, _, _, _, _ => none
  | fuel + 1, r, table_offset, class_typeinfo, cxxabi_offsets =>
    match BinReader.read_u32 (BinReader.set_position r (table_offset + 4)) with
    | (none, _) => none
    | (some typeinfo_addr, r1) =>
      let r2 := BinReader.set_position r1 table_offset
      if typeinfo_addr ≠ class_typeinfo then some ([], r2)
      else
        match handle_vtable fuel r2 class_typeinfo cxxabi_offsets with
        | none => none
        | some (table, r3) =>
          match get_class_vtable_loop fuel r3 (r3.pos % 2 ^ 32)
              class_typeinfo cxxabi_offsets with
          | none => none
          | some (rest, rE) => some (table :: rest, rE)

/-- `get_class_vtable` from `src/main.rs`: read the class typeinfo address
from `vtable_addr + 4`, reposition at `vtable_addr`, and collect the
back-to-back vtable groups. -/
def get_class_vtable (fuel : Nat) (r : BinReader) (vtable_addr : Nat)
    (cxxabi_offsets : List Nat) : Option (List (Int × List Nat) × BinReader) :=
  match BinReader.read_u32 (BinReader.set_position r (vtable_addr + 4)) with
  | (none, _) => none
  | (some class_typeinfo, r1) =>
    get_class_vtable_loop fuel (BinReader.set_position r1 vtable_addr)
      vtable_addr class_typeinfo cxxabi_offsets

/-- A successful `read_i32` consumes exactly the four buffer bytes at the
current position, decoded as a signed little-endian 32-bit value. -/
lemma read_i32_success (r : BinReader) (v : Int) (r1 : BinReader)
    (h : BinReader.read_i32 r = (some v, r1)) :
    r.pos + 4 ≤ r.data.length ∧ r1 = ⟨r.data, r.pos + 4⟩ ∧
    v = sint32 (le_bytes ((r.data.drop r.pos).take 4)) := by
  unfold BinReader.read_i32 at h
  rw [Prod.mk.injEq] at h
  obtain ⟨h1, h2⟩ := h
  cases hb : (BinReader.read_bytes r 4).1 with
  | none => rw [hb] at h1; exact absurd h1 (by simp)
  | some bs =>
    obtain ⟨hle, hbs, hsnd⟩ := BinReader.read_bytes_success r 4 bs (by norm_num) hb
    rw [hb] at h1
    simp only [Option.map_some'] at h1
    rw [Option.some.injEq] at h1
    refine ⟨hle, by rw [← h2, hsnd], by rw [← h1, hbs]⟩

/-- Every function-pointer list committed by the slot scan omits the zero
address: a zero slot triggers the rewind-and-stop branch instead. -/
lemma handle_vtable_scan_no_zero :
    ∀ fuel r ct offs fps rE,
      handle_vtable_scan fuel r ct offs = some (fps, rE) → ∀ a ∈ fps, a ≠ 0 := by
  intro fuel
  induction fuel with
  | zero => intro r ct offs fps rE h; exact absurd h (by simp [handle_vtable_scan])
  | succ f ih =>
    intro r ct offs fps rE h
    simp only [handle_vtable_scan] at h
    split at h
    · rw [Option.some.injEq, Prod.mk.injEq] at h
      intro a ha
      rw [← h.1] at ha
      simp at ha
    · rename_i addr r1 heq1
      split at h
      · exact absurd h (by simp)
      · rename_i next r2 heq2
        split at h
        · rw [Option.some.injEq, Prod.mk.injEq] at h
          intro a ha
          rw [← h.1] at ha
          simp at ha
        · rename_i hcond
          split at h
          · exact absurd h (by simp)
          · rename_i rest rE2 heq3
            rw [Option.some.injEq, Prod.mk.injEq] at h
            intro a ha
            rw [← h.1] at ha
            simp only [List.mem_cons] at ha
            rcases ha with rfl | hmem
            · intro h0
              exact hcond (by simp [h0])
            · exact ih _ _ _ _ _ heq3 a hmem

/-- `handle_vtable` only reports nonzero function-pointer entries. -/
lemma handle_vtable_no_zero (fuel : Nat) (r : BinReader) (ct : Nat)
    (offs : List Nat) (o : Int) (fps : List Nat) (rE : BinReader)
    (h : handle_vtable fuel r ct offs = some ((o, fps), rE)) :
    ∀ a ∈ fps, a ≠ 0 := by
  unfold handle_vtable at h
  split at h
  · exact absurd h (by simp)
  · rename_i o1 r1 heq1
    split at h
    · exact absurd h (by simp)
    · rename_i fps2 rE2 heq2
      rw [Option.some.injEq, Prod.mk.injEq, Prod.mk.injEq] at h
      intro a ha
      rw [← h.1.2] at ha
      exact handle_vtable_scan_no_zero fuel _ ct offs fps2 rE2 heq2 a ha

/-- No group collected by the extractor loop contains a zero entry. -/
lemma get_class_vtable_loop_no_zero :
    ∀ fuel r t ct offs groups rE,
      get_class_vtable_loop fuel r t ct offs = some (groups, rE) →
      ∀ g ∈ groups, ∀ a ∈ g.2, a ≠ 0 := by
  intro fuel
  induction fuel with
  | zero =>
    intro r t ct offs groups rE h
    exact absurd h (by simp [get_class_vtable_loop])
  | succ f ih =>
    intro r t ct offs groups rE h
    simp only [get_class_vtable_loop] at h
    split at h
    · exact absurd h (by simp)
    · rename_i ti r1 heq1
      split at h
      · rw [Option.some.injEq, Prod.mk.injEq] at h
        intro g hg
        rw [← h.1] at hg
        simp at hg
      · split at h
        · exact absurd h (by simp)
        · rename_i table r3 heq2
          split at h
          · exact absurd h (by simp)
          · rename_i rest rE2 heq3
            rw [Option.some.injEq, Prod.mk.injEq] at h
            intro g hg
            rw [← h.1] at hg
            simp only [List.mem_cons] at hg
            rcases hg with rfl | hmem
            · obtain ⟨o, fps⟩ := g
              exact handle_vtable_no_zero f _ ct offs o fps r3 heq2
            · exact ih _ _ _ _ _ _ heq3 g hmem

/-- C3, amended: no element of any function-pointer list returned by
`get_class_vtable` is the zero address.  (The type-info-marker check of the
source applies to the 4-byte lookahead following each slot, not to the
slot's own value, so a committed entry can itself equal a marker offset —
see the counterexample.) -/
theorem get_class_vtable_no_zero_entries (fuel : Nat) (r : BinReader)
    (vtable_addr : Nat) (cxxabi_offsets : List Nat)
    (groups : List (Int × List Nat)) (rE : BinReader)
    (h : get_class_vtable fuel r vtable_addr cxxabi_offsets = some (groups, rE)) :
    ∀ g ∈ groups, ∀ a ∈ g.2, a ≠ 0 := by
  unfold get_class_vtable at h
  split at h
  · exact absurd h (by simp)
  · rename_i ct r1 heq
    exact get_class_vtable_loop_no_zero fuel _ _ ct _ groups rE h

/-- A buffer whose single vtable group (typeinfo address 100) contains the
function-pointer slots 5 and 7 — where 5 equals the only typeinfo marker
offset — followed by a zero slot and a differing typeinfo (1) that
terminate the scan and the group loop. -/
def markerBuf : List Nat :=
  [0,0,0,0, 100,0,0,0, 5,0,0,0, 7,0,0,0, 0,0,0,0, 1,0,0,0]

theorem get_class_vtable_no_zero_entries_witness :
    get_class_vtable 5 ⟨markerBuf, 0⟩ 0 [5] = some ([(0, [5, 7])], ⟨markerBuf, 16⟩) ∧
    (∀ g ∈ [((0 : Int), [5, 7])], ∀ a ∈ g.2, a ≠ 0) :=
  ⟨by decide,
    get_class_vtable_no_zero_entries 5 ⟨markerBuf, 0⟩ 0 [5] [(0, [5, 7])]
      ⟨markerBuf, 16⟩ (by decide)⟩

/-- C3, counterexample: with typeinfo-marker offsets `[5]`, the extractor on
`markerBuf` returns the single group `(0, [5, 7])`, whose entry 5 equals a
marker offset — refuting "no element equals any of the given type-info
marker offsets" (the source checks the markers only against the lookahead
word). -/
theorem get_class_vtable_marker_entry_cex :
    ¬ (∀ groups rE,
        get_class_vtable 5 ⟨markerBuf, 0⟩ 0 [5] = some (groups, rE) →
        ∀ g ∈ groups, ∀ a ∈ g.2, a ∉ ([5] : List Nat)) := by
  intro hAll
  exact hAll [(0, [5, 7])] ⟨markerBuf, 16⟩ (by decide) (0, [5, 7]) (by simp)
    5 (by simp) (by simp)

/-- The signed 32-bit little-endian value stored in a buffer at a given byte
address — the spec-side reading of "the value stored at `vtable_address`". -/
def i32_le_at (data : List Nat) (addr : Nat) : Int :=
  sint32 (le_bytes ((data.drop addr).take 4))

/-- C5: whenever `get_class_vtable` completes, the returned sequence is
nonempty and its first group's `offset_to_this` equals the signed 32-bit
little-endian value stored at `vtable_addr` (the first iteration's typeinfo
peek reads the very bytes that defined `class_typeinfo`, so it always
matches and the first group is always decoded from `vtable_addr`). -/
theorem get_class_vtable_first_offset_to_this (fuel : Nat) (r : BinReader)
    (vtable_addr : Nat) (cxxabi_offsets : List Nat)
    (hva : vtable_addr < 2 ^ 32)
    (groups : List (Int × List Nat)) (rE : BinReader)
    (h : get_class_vtable fuel r vtable_addr cxxabi_offsets = some (groups, rE)) :
    ∃ fns rest, groups = (i32_le_at r.data vtable_addr, fns) :: rest := by
  unfold get_class_vtable at h
  split at h
  · exact absurd h (by simp)
  · rename_i ct r1 heq1
    have hd1 : r1.data = r.data := by
      have := BinReader.read_u32_data (BinReader.set_position r (vtable_addr + 4))
      rw [heq1] at this
      exact this
    cases fuel with
    | zero => exact absurd h (by simp [get_class_vtable_loop])
    | succ f =>
      simp only [get_class_vtable_loop] at h
      split at h
      · exact absurd h (by simp)
      · rename_i ti r2 heq2
        have hstates :
            BinReader.set_position (BinReader.set_position r1 vtable_addr) (vtable_addr + 4)
              = BinReader.set_position r (vtable_addr + 4) := by
          simp [BinReader.set_position, hd1]
        rw [hstates, heq1] at heq2
        rw [Prod.mk.injEq, Option.some.injEq] at heq2
        obtain ⟨hct, hr12⟩ := heq2
        split at h
        · rename_i hne
          exact absurd hct.symm hne
        · split at h
          · exact absurd h (by simp)
          · rename_i table r3 heq3
            unfold handle_vtable at heq3
            split at heq3
            · exact absurd heq3 (by simp)
            · rename_i o r4 heq4
              obtain ⟨-, -, hval⟩ := read_i32_success _ o r4 heq4
              have hval2 : o = i32_le_at r.data vtable_addr := by
                rw [hval]
                unfold i32_le_at
                simp only [BinReader.set_position_data, BinReader.set_position]
                rw [Nat.mod_eq_of_lt hva, ← hr12, hd1]
              split at heq3
              · exact absurd heq3 (by simp)
              · rename_i fps rE4 heq5
                rw [Option.some.injEq, Prod.mk.injEq] at heq3
                split at h
                · exact absurd h (by simp)
                · rename_i rest rE5 heq6
                  rw [Option.some.injEq, Prod.mk.injEq] at h
                  refine ⟨fps, rest, ?_⟩
                  rw [← h.1, ← heq3.1, ← hval2]

/-- A buffer with a single vtable group at address 0: `offset_to_this`
0xFFFFFFF8 (= −8), typeinfo address 100, an immediate zero slot ending the
scan, and a differing typeinfo word (9) ending the group loop. -/
def firstGroupBuf : List Nat :=
  [248,255,255,255, 100,0,0,0, 0,0,0,0, 9,0,0,0]

theorem get_class_vtable_first_offset_to_this_witness :
    ((0 : Nat) < 2 ^ 32 ∧
      get_class_vtable 5 ⟨firstGroupBuf, 0⟩ 0 []
        = some ([(-8, [])], ⟨firstGroupBuf, 8⟩)) ∧
    ∃ fns rest,
      [((-8 : Int), ([] : List Nat))] = (i32_le_at firstGroupBuf 0, fns) :: rest :=
  ⟨⟨by norm_num, by decide⟩,
    get_class_vtable_first_offset_to_this 5 ⟨firstGroupBuf, 0⟩ 0 [] (by norm_num)
      [(-8, [])] ⟨firstGroupBuf, 8⟩ (by decide)⟩

/-- Whether a byte string contains the two-byte separator `"::"`
(58 = `':'`) — the model of `class_name.find("::").is_some()`. -/
def hasCC : List Nat → Bool
  | 58 :: 58 :: _ => true
  | _ :: rest => hasCC rest
  | [] => false

/-- Splitting a byte string at each non-overlapping occurrence of `"::"` ,
leftmost first — the model of `class_name.split("::")` (`acc` holds the
current segment, reversed). -/
def splitCC (acc : List Nat) : List Nat → List (List Nat)
  | [] => [acc.reverse]
  | 58 :: 58 :: rest => acc.reverse :: splitCC [] rest
  | b :: rest => splitCC (b :: acc) rest

/-- The decimal digits (as ASCII bytes) of a natural number, as produced by
Rust's `format!("{}", n)`. -/
def natDigits (n : Nat) : List Nat :=
  if n < 10 then [48 + n]
  else natDigits (n / 10) ++ [48 + n % 10]
termination_by n
decreasing_by exact Nat.div_lt_self (by omega) (by norm_num)

/-- `get_vtable_mangled_name` from `src/main.rs`: an unqualified name maps
to `"_ZTV" ++ len ++ name`; otherwise start from `"_ZTVN"`, push
`len ++ segment` for every `"::"`-separated segment, and close with `'E'`
(byte values: 95 `'_'`, 90 `'Z'`, 84 `'T'`, 86 `'V'`, 78 `'N'`, 69 `'E'`;
Rust's `name.len()` is the byte length). -/
def get_vtable_mangled_name (class_name : List Nat) : List Nat :=
  if hasCC class_name = false then
    [95, 90, 84, 86] ++ natDigits class_name.length ++ class_name
  else
    ((splitCC [] class_name).foldl
        (fun mangled n => mangled ++ (natDigits n.length ++ n))
        [95, 90, 84, 86, 78]) ++ [69]

/-- The spec's name-to-symbol mapping rule, stated as in §6: a qualified
name `A::B::C` maps to `_ZTVN{len(A)}A{len(B)}B{len(C)}CE` (one
`len ++ component` block per `"::"`-separated component, in order); an
unqualified name `C` maps to `_ZTV{len(C)}C`. -/
def mangled_name_spec (class_name : List Nat) : List Nat :=
  if hasCC class_name then
    [95, 90, 84, 86, 78]
      ++ ((splitCC [] class_name).map (fun n => natDigits n.length ++ n)).flatten
      ++ [69]
  else
    [95, 90, 84, 86] ++ natDigits class_name.length ++ class_name

/-- Folding append from a prefix is the prefix followed by the
concatenation. -/
lemma foldl_append_join (f : List Nat → List Nat) :
    ∀ (l : List (List Nat)) (pre : List Nat),
      l.foldl (fun acc n => acc ++ f n) pre = pre ++ (l.map f).flatten := by
  intro l
  induction l with
  | nil => intro pre; simp
  | cons a t ih => intro pre; simp [ih, List.append_assoc]

/-- C8: the source's mangler agrees with the spec's mapping rule on every
byte string: `_ZTVN` + per-component `len ++ component` + `E` when the name
contains `"::"`, and `_ZTV` + length + name otherwise. -/
theorem get_vtable_mangled_name_spec_eq (class_name : List Nat) :
    get_vtable_mangled_name class_name = mangled_name_spec class_name := by
  unfold get_vtable_mangled_name mangled_name_spec
  cases h : hasCC class_name with
  | false => simp [h]
  | true => simp [h, foldl_append_join (fun n => natDigits n.length ++ n)]

/-- The record type of the `dump-vtable-json` action (`name` is the symbol's
byte string, `offset` the byte offset within the vtable group). -/
structure DumpVtableJSONOutput where
  name : List Nat
  address : Nat
  offset : Nat
deriving DecidableEq, Repr

/-- The `dump[0].1.iter().for_each(...)` loop of the JSON rendering
(`src/main.rs` lines 375–384): one record per function address, reading the
symbol name from the address→name map (a missing key is a `HashMap` index
panic, modelled `none`), with `offset: 8 + 4 * i` (a `u32`) for the running
counter `i`. -/
def dump_vtable_json_loop (addr_to_sym : Nat → Option (List Nat)) :
    List Nat → Nat → Option (List DumpVtableJSONOutput)
  | [], _ => some []
  | addr :: rest, i =>
    match addr_to_sym addr with
    | none => none
    | some nm =>
      match dump_vtable_json_loop addr_to_sym rest (i + 1) with
      | none => none
      | some entries => some (⟨nm, addr, (8 + 4 * i) % 2 ^ 32⟩ :: entries)

/-- The `dump-vtable-json` rendering from `main`: it only ever touches
`dump[0]` (panicking, modelled `none`, when the extraction is empty) and
renders that first group's function list with offsets starting at 8. -/
def dump_vtable_json (dump : List (Int × List Nat))
    (addr_to_sym : Nat → Option (List Nat)) : Option (List DumpVtableJSONOutput) :=
  match dump with
  | [] => none
  | g :: _ => dump_vtable_json_loop addr_to_sym g.2 0

/-- The loop yields the addresses in order, with offsets
`(8 + 4 * (i + j)) % 2^32` for `j` counting from 0. -/
lemma dump_vtable_json_loop_spec (a2s : Nat → Option (List Nat)) :
    ∀ (l : List Nat) (i : Nat) (es : List DumpVtableJSONOutput),
      dump_vtable_json_loop a2s l i = some es →
      es.map DumpVtableJSONOutput.address = l ∧
      es.map DumpVtableJSONOutput.offset
        = (List.range l.length).map (fun j => (8 + 4 * (i + j)) % 2 ^ 32) := by
  intro l
  induction l with
  | nil =>
    intro i es h
    simp only [dump_vtable_json_loop, Option.some.injEq] at h
    rw [← h]
    simp
  | cons a t ih =>
    intro i es h
    simp only [dump_vtable_json_loop] at h
    split at h
    · exact absurd h (by simp)
    · rename_i nm heq1
      split at h
      · exact absurd h (by simp)
      · rename_i entries heq2
        rw [Option.some.injEq] at h
        obtain ⟨h1, h2⟩ := ih (i + 1) entries heq2
        refine ⟨by rw [← h]; simp [h1], ?_⟩
        rw [← h]
        simp only [List.map_cons, List.length_cons]
        rw [h2, List.range_succ_eq_map, List.map_cons, List.map_map]
        congr 1
        apply List.map_congr_left
        intro j hj
        simp only [Function.comp_apply, Nat.succ_eq_add_one]
        congr 1
        omega

/-- C9: a successful JSON rendering of `g :: rest` lists exactly the first
group's function addresses, in order, the `j`-th record carrying offset
`8 + 4 * j`; and the result is the same whatever `rest` is — the rendering
is single-group only. -/
theorem dump_vtable_json_first_group_only (g : Int × List Nat)
    (rest : List (Int × List Nat)) (a2s : Nat → Option (List Nat))
    (es : List DumpVtableJSONOutput)
    (h : dump_vtable_json (g :: rest) a2s = some es) :
    es.map DumpVtableJSONOutput.address = g.2 ∧
    es.map DumpVtableJSONOutput.offset
      = (List.range g.2.length).map (fun j => (8 + 4 * j) % 2 ^ 32) ∧
    dump_vtable_json (g :: rest) a2s = dump_vtable_json [g] a2s := by
  have hs := dump_vtable_json_loop_spec a2s g.2 0 es h
  refine ⟨hs.1, ?_, rfl⟩
  rw [hs.2]
  apply List.map_congr_left
  intro j hj
  norm_num

theorem dump_vtable_json_first_group_only_witness :
    dump_vtable_json [((0 : Int), [5, 7]), ((8 : Int), [9])] (fun _ => some [102])
      = some [⟨[102], 5, 8⟩, ⟨[102], 7, 12⟩] ∧
    ([(⟨[102], 5, 8⟩ : DumpVtableJSONOutput), ⟨[102], 7, 12⟩].map
        DumpVtableJSONOutput.address = [5, 7] ∧
      [(⟨[102], 5, 8⟩ : DumpVtableJSONOutput), ⟨[102], 7, 12⟩].map
        DumpVtableJSONOutput.offset
        = (List.range ([5, 7] : List Nat).length).map (fun j => (8 + 4 * j) % 2 ^ 32) ∧
      dump_vtable_json [((0 : Int), [5, 7]), ((8 : Int), [9])] (fun _ => some [102])
        = dump_vtable_json [((0 : Int), [5, 7])] (fun _ => some [102])) :=
  ⟨by decide,
    dump_vtable_json_first_group_only (0, [5, 7]) [(8, [9])] (fun _ => some [102])
      [⟨[102], 5, 8⟩, ⟨[102], 7, 12⟩] (by decide)⟩
